import Mathlib

/-!
Shallow embedding of `AI.py` (Rock-Paper-Scissors AI): the move/reward model,
the predictor variants, the entropy-based regime-shift detector, the contextual
bandit controller, and the per-round bookkeeping of `play_rps`.  Pure pieces of
the Python source are translated as Lean functions; the stateful pieces are
translated as explicit state-passing step functions.
-/

/-- The three-valued move alphabet: the strings "R", "P", "S" of the source. -/
inductive Move where
  | R
  | P
  | S
deriving DecidableEq, Repr, Fintype

/-- Key iteration order of the Python dicts `{"R": .., "P": .., "S": ..}`
(insertion order R, P, S). -/
def moveKeys : List Move := [Move.R, Move.P, Move.S]

/-- `get_reward(my_move, opponent_move)` from the source: 0 on a tie, 1 when
`(my_move, opponent_move)` is one of `("R","S"), ("P","R"), ("S","P")`,
otherwise -1. -/
def get_reward (my_move opponent_move : Move) : Int :=
  if my_move = opponent_move then 0
  else if (my_move, opponent_move) ∈
      [(Move.R, Move.S), (Move.P, Move.R), (Move.S, Move.P)] then 1
  else -1

/-- Python's `max(keys, key=f)` over a non-empty key list: fold keeping the
current best, replacing it only on a strictly greater score, so the first
maximal key wins. -/
def pyMaxKeyList (f : Move → ℕ) : List Move → Option Move
  | [] => none
  | k :: ks => some (ks.foldl (fun best x => if f best < f x then x else best) k)

/-- State of `FrequencyCounter`: the per-move opponent counts dict. -/
structure FrequencyCounter where
  counts : Move → ℕ

/-- `FrequencyCounter.__init__`: all three counts start at 0. -/
def FrequencyCounter.init : FrequencyCounter := ⟨fun _ => 0⟩

/-- `FrequencyCounter.predict(history)`: `max(self.counts, key=self.counts.get)`
over the dict with key order R, P, S; the history argument is ignored by the
source. -/
def FrequencyCounter.predict (fc : FrequencyCounter) (_history : List (Move × Move)) : Move :=
  (pyMaxKeyList fc.counts moveKeys).getD Move.R

/-- `FrequencyCounter.update`: increment the count of the observed opponent
move. -/
def FrequencyCounter.update (fc : FrequencyCounter) (_my_move opponent_move : Move) :
    FrequencyCounter :=
  ⟨Function.update fc.counts opponent_move (fc.counts opponent_move + 1)⟩

/-- State of `FirstOrderMarkov`: the 3x3 transition-count table and the last
recorded opponent move (`None` before the first update). -/
structure FirstOrderMarkov where
  transitions : Move → Move → ℕ
  last : Option Move

/-- `FirstOrderMarkov.__init__`: all nine transition cells seeded at 1, no last
move. -/
def FirstOrderMarkov.init : FirstOrderMarkov := ⟨fun _ _ => 1, none⟩

/-- `FirstOrderMarkov.update`: if a previous opponent move is on record,
increment `transitions[last][opponent_move]`; then set `last` to the observed
move. -/
def FirstOrderMarkov.update (m : FirstOrderMarkov) (_my_move opponent_move : Move) :
    FirstOrderMarkov :=
  match m.last with
  | some prev =>
      ⟨Function.update m.transitions prev
        (Function.update (m.transitions prev) opponent_move
          (m.transitions prev opponent_move + 1)),
       some opponent_move⟩
  | none => ⟨m.transitions, some opponent_move⟩

/-- Outcome of one pass through the body of `get_opponent_move`'s `while` loop
on a single line of input. -/
inductive ReadOutcome where
  | retMove (s : List Char)
  | exitGame
  | reprompt
deriving DecidableEq, Repr

/-- Whether the first list is an initial segment of the second. -/
def leadsWith : List Char → List Char → Bool
  | [], _ => true
  | _ :: _, [] => false
  | a :: as, b :: bs => a == b && leadsWith as bs

/-- Python's substring test `sub in s` for strings: `sub` occurs contiguously
inside `s` (the empty string occurs in every string). -/
def isSubstrOf (sub : List Char) : List Char → Bool
  | [] => sub.isEmpty
  | c :: rest => leadsWith sub (c :: rest) || isSubstrOf sub rest

/-- The characters of the string literal `'RPS'` in `get_opponent_move`. -/
def rpsChars : List Char := ['R', 'P', 'S']

/-- One iteration of `get_opponent_move` on one input line:
`choice = input(..).upper()`; if `choice in 'RPS' and choice != ''` return it;
if `choice == 'E'` terminate the process; otherwise print the reminder and
re-prompt. -/
def get_opponent_move_step (input_line : List Char) : ReadOutcome :=
  let choice := input_line.map Char.toUpper
  if isSubstrOf choice rpsChars ∧ choice ≠ [] then ReadOutcome.retMove choice
  else if choice = ['E'] then ReadOutcome.exitGame
  else ReadOutcome.reprompt

/-- Win/loss bookkeeping of `play_rps`: `plays`, `ai_wins`, `player_wins`. -/
structure ScoreBoard where
  plays : ℕ
  ai_wins : ℕ
  player_wins : ℕ
deriving DecidableEq, Repr

/-- The reporting tail of one `play_rps` round (lines computing `player_won`,
the win counters, `ratio` and `message`), together with the `plays += 1` from
the top of the loop.  Returns the new scoreboard, the printed message and the
printed ratio (exact rational in place of the Python float). -/
def report_round (sb : ScoreBoard) (my_move opponent_move : Move) :
    ScoreBoard × String × ℚ :=
  let plays := sb.plays + 1
  let reward := get_reward my_move opponent_move
  let player_won : Bool := reward == 0
  let sb' :=
    if player_won then
      { sb with plays := plays, player_wins := sb.player_wins + 1 }
    else
      { sb with plays := plays, ai_wins := sb.ai_wins + 1 }
  let message := if player_won then "You win!" else "AI wins!"
  (sb', message, (sb'.ai_wins : ℚ) / (plays : ℚ))

/-- References to the four strategy objects created in `play_rps`.  The Python
objects are shared by reference; their mutable statistics live in
`PredictorsState` below. -/
inductive StrategyRef where
  | freq
  | markov
  | mirror
  | fuzzy
deriving DecidableEq, Repr

/-- Result of Python's mutating `list.append`: the mutated list, and the
method's return value, which is `None`. -/
structure PyAppendResult (α : Type) where
  listAfter : List α
  returned : Option (List α)

/-- Python `l.append(x)`: `l` becomes `l ++ [x]` and the call returns `None`. -/
def pyAppend (l : List α) (x : α) : PyAppendResult α := ⟨l ++ [x], none⟩

/-- `base_strategies = [FrequencyCounter(), FirstOrderMarkov(), MirrorStrategy()]`
in `play_rps`, before `fuzzy` is appended. -/
def base_strategies_initial : List StrategyRef :=
  [StrategyRef.freq, StrategyRef.markov, StrategyRef.mirror]

/-- The statement `strategies = base_strategies.append(fuzzy)` of `play_rps`:
it mutates `base_strategies` and evaluates to `None`. -/
def append_step : PyAppendResult StrategyRef := pyAppend base_strategies_initial StrategyRef.fuzzy

/-- The `base_strategies` list object after the append.  By aliasing it is also
`fuzzy.strategies`, the ensemble's member list — which therefore contains the
ensemble itself. -/
def base_strategies : List StrategyRef := append_step.listAfter

/-- The value bound to the variable `strategies` in `play_rps`: the return
value of `list.append`, i.e. `None`. -/
def strategies : Option (List StrategyRef) := append_step.returned

/-- Combined mutable statistics of the predictor objects of one `play_rps`
session (`MirrorStrategy` and `FuzzyVotingStrategy` own no statistics). -/
structure PredictorsState where
  freqc : FrequencyCounter
  markov : FirstOrderMarkov

/-- Executes `for strat in l: strat.update(my_move, opponent_move)` where
`fuzzy.update` forwards the call to every member of its (aliased) member list
`base_strategies`, which contains `fuzzy` itself.  `fuel` bounds the Python
call-stack depth consumed by nested `fuzzy.update` calls; `none` models a
`RecursionError`. -/
def runUpdates (fuel : ℕ) (l : List StrategyRef) (st : PredictorsState)
    (my_move opponent_move : Move) : Option PredictorsState :=
  match l with
  | [] => some st
  | StrategyRef.freq :: rest =>
      runUpdates fuel rest { st with freqc := st.freqc.update my_move opponent_move }
        my_move opponent_move
  | StrategyRef.markov :: rest =>
      runUpdates fuel rest { st with markov := st.markov.update my_move opponent_move }
        my_move opponent_move
  | StrategyRef.mirror :: rest =>
      runUpdates fuel rest st my_move opponent_move
  | StrategyRef.fuzzy :: rest =>
      match fuel with
      | 0 => none
      | fuel' + 1 =>
          match runUpdates fuel' base_strategies st my_move opponent_move with
          | none => none
          | some st2 => runUpdates (fuel' + 1) rest st2 my_move opponent_move
termination_by (fuel, l.length)

/-- Python `l[-n:]`: the last `n` elements of `l` (all of `l` when it is
shorter). -/
def lastN (n : ℕ) (l : List α) : List α := l.drop (l.length - n)

/-- Keys of `collections.Counter(moves)`: the moves that actually occur (the
source iterates them in first-encounter order; only the sum over them is used,
so the fixed order here is harmless). -/
def distinctKeys (moves : List Move) : List Move := moveKeys.filter (fun m => m ∈ moves)

/-- `entropy(moves)` from the source: Shannon entropy (base 2) of the empirical
move distribution; 0 on empty input. -/
noncomputable def entropy (moves : List Move) : ℝ :=
  let total := moves.length
  if 0 < total then
    - ((distinctKeys moves).map (fun m =>
        ((moves.count m : ℝ) / (total : ℝ)) *
          Real.logb 2 ((moves.count m : ℝ) / (total : ℝ)))).sum
  else 0

/-- `entropy_window = 10` in `play_rps`. -/
def entropy_window : ℕ := 10

/-- `entropy_threshold = 1.5` in `play_rps`. -/
noncomputable def entropy_threshold : ℝ := 1.5

/-- Detector-relevant state of the `play_rps` loop: `entropy_counter`,
`entropy_stable_rounds`, and `raw_opponent_moves`. -/
structure DetectorState where
  entropy_counter : ℕ
  entropy_stable_rounds : ℕ
  raw_opponent_moves : List Move

/-- One round of the detector logic of `play_rps`: `entropy_counter += 1` at
the top of the loop, `raw_opponent_moves.append(opponent_move)`, then the
meta-switching block.  Returns the new state, whether the entropy of the last
`entropy_window` raw moves was computed this round, and whether a regime shift
was signalled (i.e. `bandit` was replaced). -/
noncomputable def detRound (st : DetectorState) (opponent_move : Move) :
    DetectorState × Bool × Bool :=
  let counter := st.entropy_counter + 1
  let raw := st.raw_opponent_moves ++ [opponent_move]
  if entropy_window ≤ counter then
    let recent_entropy := entropy (lastN entropy_window raw)
    let stable :=
      if entropy_threshold < recent_entropy then st.entropy_stable_rounds + 1 else 0
    if 3 ≤ stable then
      (⟨counter % entropy_window, 0, raw⟩, true, true)
    else
      (⟨counter, stable, raw⟩, true, false)
  else
    (⟨counter, st.entropy_stable_rounds, raw⟩, false, false)

/-- The detector state after `n` rounds of `play_rps` in which the opponent's
moves are `mv 0, mv 1, ...`. -/
noncomputable def detTrace (mv : ℕ → Move) : ℕ → DetectorState
  | 0 => ⟨0, 0, []⟩
  | n + 1 => (detRound (detTrace mv n) (mv n)).1

/-- Whether round `n + 1` (0-indexed step `n`) of the `play_rps` loop computes
the window entropy. -/
noncomputable def evalAt (mv : ℕ → Move) (n : ℕ) : Bool :=
  (detRound (detTrace mv n) (mv n)).2.1

/-- Whether round `n + 1` (0-indexed step `n`) of the `play_rps` loop signals a
regime shift and replaces the bandit controller. -/
noncomputable def shiftAt (mv : ℕ → Move) (n : ℕ) : Bool :=
  (detRound (detTrace mv n) (mv n)).2.2

/-- One entry of `history`: the pair `(my_move, opponent_move)` of a completed
round. -/
abbrev RoundRecord := Move × Move

/-- A key of `BanditController.context_memory`: `none` is the sentinel
`(None, None, None)` used when fewer than 3 rounds exist, `some` is the tuple
of the last 3 history entries. -/
abbrev Context := Option (RoundRecord × RoundRecord × RoundRecord)

/-- `BanditController._context_key(history)`: the sentinel when the history has
fewer than 3 entries, otherwise `tuple(history[-3:])`. -/
def _context_key (history : List RoundRecord) : Context :=
  if history.length < 3 then none
  else
    match history.drop (history.length - 3) with
    | [a, b, c] => some (a, b, c)
    | _ => none

/-- One per-arm statistics cell `[cumulative_reward, pull_count]`. -/
abbrev ArmStats := ℝ × ℕ

/-- State of a `BanditController`: `n` is `len(self.strategies)` and
`context_memory` the dict from context keys to the per-index statistics (the
inner dict `{i: [0.0, 1] for i in range(n)}` is modelled as the length-`n` list
indexed by `i`). -/
structure BanditController where
  n : ℕ
  context_memory : Context → Option (List ArmStats)

/-- The inner dict created on first sight of a context:
`{i: [0.0, 1] for i in range(n)}`. -/
def initArms (n : ℕ) : List ArmStats := List.replicate n ((0 : ℝ), 1)

/-- The lazy-initialization step shared by `select_strategy` and `update`:
`if context not in self.context_memory: self.context_memory[context] = {...}`. -/
def BanditController.ensure (b : BanditController) (c : Context) : BanditController :=
  match b.context_memory c with
  | some _ => b
  | none => ⟨b.n, Function.update b.context_memory c (some (initArms b.n))⟩

/-- The `ucb_scores` list comprehension of `select_strategy`:
`total = sum(c for _, c in mem[context].values())` and, per index `i`,
`mem[context][i][0] / mem[context][i][1]
 + 2 * (math.log(total) / mem[context][i][1]) ** 0.5`. -/
noncomputable def ucb_scores (arms : List ArmStats) : List ℝ :=
  let total : ℕ := (arms.map (fun a => a.2)).sum
  arms.map (fun a =>
    a.1 / (a.2 : ℝ) + 2 * Real.sqrt (Real.log (total : ℝ) / (a.2 : ℝ)))

/-- Python `max(l)` on a non-empty list of floats (0 placeholder for the empty
list, on which Python raises). -/
noncomputable def pyListMax : List ℝ → ℝ
  | [] => 0
  | x :: xs => xs.foldl max x

/-- Python `l.index(v)`: the first position holding `v` (length placeholder
when absent, where Python raises). -/
noncomputable def pyIndex (v : ℝ) : List ℝ → ℕ
  | [] => 0
  | x :: xs => if x = v then 0 else pyIndex v xs + 1

/-- `ucb_scores.index(max(ucb_scores))` of `select_strategy`. -/
noncomputable def selectIdx (l : List ℝ) : ℕ := pyIndex (pyListMax l) l

/-- `BanditController.select_strategy(history)`: resolve the context, lazily
initialize its statistics, and return the index of the first maximal UCB
score.  The state after the call is returned alongside the index. -/
noncomputable def BanditController.select_strategy (b : BanditController)
    (history : List RoundRecord) : BanditController × ℕ :=
  let c := _context_key history
  let b' := b.ensure c
  let arms := (b'.context_memory c).getD []
  (b', selectIdx (ucb_scores arms))

/-- The statements `mem[context][index][0] += reward` and
`mem[context][index][1] += 1` on the list-modelled inner dict (an out-of-range
`index`, on which Python raises, leaves the list unchanged). -/
def bumpArm (reward : ℝ) : ℕ → List ArmStats → List ArmStats
  | _, [] => []
  | 0, a :: rest => (a.1 + reward, a.2 + 1) :: rest
  | i + 1, a :: rest => a :: bumpArm reward i rest

/-- `BanditController.update(history, index, reward)`: resolve the context,
lazily initialize its statistics, add the reward and increment the pull
count at `index`. -/
noncomputable def BanditController.update (b : BanditController)
    (history : List RoundRecord) (index : ℕ) (reward : ℝ) : BanditController :=
  let c := _context_key history
  let b' := b.ensure c
  ⟨b'.n, Function.update b'.context_memory c
    (some (bumpArm reward index ((b'.context_memory c).getD [])))⟩

/-- `BanditController(strategies)` over `n` strategies: empty context memory. -/
def freshController (n : ℕ) : BanditController := ⟨n, fun _ => none⟩

/-- The reset of `play_rps`: when the detector signals a shift, the statement
`bandit = BanditController(strategies)` replaces the controller instance by a
fresh one; otherwise the old instance stays. -/
def resetOnShift (shift : Bool) (b : BanditController) : BanditController :=
  if shift then freshController b.n else b

/-- Python `len` applied to a value that may be `None`: `none` models the
`TypeError` raised by `len(None)`. -/
def pyLen (l : Option (List α)) : Option ℕ :=
  match l with
  | none => none
  | some xs => some xs.length

/-- `bandit.select_strategy(history)` as invoked by `play_rps`, with the
strategies list the controller actually holds: the method needs
`len(self.strategies)` before it can produce any index, so a controller built
from `strategies = None` fails (`none`). -/
noncomputable def select_strategy_checked (strats : Option (List StrategyRef))
    (memory : Context → Option (List ArmStats)) (history : List RoundRecord) :
    Option (BanditController × ℕ) :=
  match pyLen strats with
  | none => none
  | some n => some (BanditController.select_strategy ⟨n, memory⟩ history)

/-- States of a `BanditController` over `n` strategies reachable from the
freshly constructed instance by `select_strategy` and `update` calls. -/
inductive Reachable (n : ℕ) : BanditController → Prop
  | init : Reachable n (freshController n)
  | sel (b : BanditController) (history : List RoundRecord) :
      Reachable n b → Reachable n (b.select_strategy history).1
  | upd (b : BanditController) (history : List RoundRecord) (index : ℕ) (reward : ℝ) :
      Reachable n b → Reachable n (b.update history index reward)

/-- Structural invariant of the controller's memory: every initialized context
holds exactly `n` arms and every pull count is at least 1. -/
def ControllerInv (n : ℕ) (b : BanditController) : Prop :=
  b.n = n ∧ ∀ c arms, b.context_memory c = some arms →
    arms.length = n ∧ ∀ a ∈ arms, 1 ≤ a.2

/-- C9: `get_reward` is antisymmetric over the three-move alphabet —
`get_reward a b = -get_reward b a` for all moves (in particular for all
`a ≠ b`), and `get_reward a a = 0` for every move `a`. -/
theorem get_reward_antisymmetric :
    (∀ a b : Move, get_reward a b = - get_reward b a) ∧
    (∀ a : Move, get_reward a a = 0) := by decide

/-- C10: `FrequencyCounter.predict` is fully deterministic — it returns the
first move in the fixed order R, P, S whose count is maximal, and on the
all-zero initial counts (e.g. the first round, empty history) it returns R. -/
theorem frequency_predict_deterministic (fc : FrequencyCounter)
    (history : List (Move × Move)) :
    (fc.predict history = Move.R ↔
      fc.counts Move.P ≤ fc.counts Move.R ∧ fc.counts Move.S ≤ fc.counts Move.R) ∧
    (fc.predict history = Move.P ↔
      fc.counts Move.R < fc.counts Move.P ∧ fc.counts Move.S ≤ fc.counts Move.P) ∧
    (fc.predict history = Move.S ↔
      fc.counts Move.R < fc.counts Move.S ∧ fc.counts Move.P < fc.counts Move.S) ∧
    FrequencyCounter.init.predict history = Move.R := by
  have e : fc.predict history =
      if fc.counts (if fc.counts Move.R < fc.counts Move.P then Move.P else Move.R) <
          fc.counts Move.S then Move.S
      else if fc.counts Move.R < fc.counts Move.P then Move.P else Move.R := rfl
  refine ⟨?_, ?_, ?_, rfl⟩ <;> rw [e] <;> split_ifs <;> simp_all <;> omega

/-- C5 (code): a two-character input such as "rp" passes the Python substring
test `choice in 'RPS'` and is returned as a "move", instead of being rejected
with a re-prompt; single-character moves, the empty string, the end sentinel
and garbage behave as the spec says. -/
theorem get_opponent_move_returns_multichar :
    get_opponent_move_step ['r'] = ReadOutcome.retMove ['R'] ∧
    get_opponent_move_step ['P'] = ReadOutcome.retMove ['P'] ∧
    get_opponent_move_step ['s'] = ReadOutcome.retMove ['S'] ∧
    get_opponent_move_step [] = ReadOutcome.reprompt ∧
    get_opponent_move_step ['e'] = ReadOutcome.exitGame ∧
    get_opponent_move_step ['x'] = ReadOutcome.reprompt ∧
    get_opponent_move_step ['r', 'p'] = ReadOutcome.retMove ['R', 'P'] ∧
    (['R', 'P'] : List Char).length ≠ 1 := by decide

/-- C3 (code): `play_rps` sets `player_won = reward == 0`, so on the round
(my R, opponent P) — which the AI loses, reward -1 — it prints "AI wins!",
counts an AI win, and reports a 100% ratio; and on a tie (reward 0) it prints
"You win!" and counts a player win.  The claimed reporting (system wins iff
reward = +1, opponent wins iff reward = -1, ratio = system wins / plays) is
violated. -/
theorem report_declares_wrong_winner :
    get_reward Move.R Move.P = -1 ∧
    (report_round ⟨0, 0, 0⟩ Move.R Move.P).2.1 = "AI wins!" ∧
    (report_round ⟨0, 0, 0⟩ Move.R Move.P).1.ai_wins = 1 ∧
    (report_round ⟨0, 0, 0⟩ Move.R Move.P).2.2 = 1 ∧
    get_reward Move.R Move.R = 0 ∧
    (report_round ⟨0, 0, 0⟩ Move.R Move.R).2.1 = "You win!" ∧
    (report_round ⟨0, 0, 0⟩ Move.R Move.R).1.player_wins = 1 := by
  refine ⟨rfl, rfl, rfl, ?_, rfl, rfl, rfl⟩
  show ((1 : ℚ) / (1 : ℚ)) = 1
  norm_num

/-- C1 (code): in `play_rps`, `strategies = base_strategies.append(fuzzy)`
binds `None` (Python `list.append` returns `None`) although the mutated list
does hold the four predictor variants; hence the first `select_strategy` call
of the round loop fails on `len(self.strategies)` instead of returning an
index. -/
theorem play_rps_first_selection_fails :
    strategies = none ∧
    base_strategies =
      [StrategyRef.freq, StrategyRef.markov, StrategyRef.mirror, StrategyRef.fuzzy] ∧
    select_strategy_checked strategies (fun _ => none) [] = none :=
  ⟨rfl, rfl, rfl⟩

/-- C2 (code): the per-round update loop `for strat in strategies` over the
four-strategy list never completes for any call-depth budget: the ensemble's
member list is the same (aliased) list and so contains the ensemble itself,
making its forwarded `update` recurse without bound — no predictor's
statistics are advanced exactly once per round. -/
theorem update_loop_never_completes (fuel : ℕ) (st : PredictorsState)
    (my_move opponent_move : Move) :
    runUpdates fuel base_strategies st my_move opponent_move = none := by
  have hb : base_strategies =
      [StrategyRef.freq, StrategyRef.markov, StrategyRef.mirror, StrategyRef.fuzzy] := rfl
  induction fuel generalizing st with
  | zero => rw [hb]; simp [runUpdates]
  | succ f ih =>
      rw [hb]
      simp only [runUpdates]
      rw [ih]

/-- Entropy of a constant window is 0: a single symbol has ratio 1 and
log2 1 = 0. -/
theorem entropy_replicate (n : ℕ) (m : Move) : entropy (List.replicate n m) = 0 := by
  cases n with
  | zero => simp [entropy]
  | succ k =>
      have hd : distinctKeys (List.replicate (k + 1) m) = [m] := by
        cases m <;> simp [distinctKeys, moveKeys, List.mem_replicate]
      have hc : (List.replicate (k + 1) m).count m = k + 1 :=
        List.count_replicate_self m (k + 1)
      have hk : ((k : ℝ) + 1) ≠ 0 := by positivity
      simp [entropy, hd, hc, div_self hk, Real.logb_one]

/-- The appended raw move list of one detector round. -/
theorem detRound_raw (st : DetectorState) (m : Move) :
    ((detRound st m).1).raw_opponent_moves = st.raw_opponent_moves ++ [m] := by
  simp only [detRound]
  split_ifs <;> rfl

/-- Entropy is computed in a round exactly when the incremented
`entropy_counter` has reached the window size. -/
theorem detRound_eval_iff (st : DetectorState) (m : Move) :
    (detRound st m).2.1 = true ↔ entropy_window ≤ st.entropy_counter + 1 := by
  simp only [detRound]
  split_ifs <;> simp_all

/-- A regime shift is signalled exactly when entropy was computed, it exceeded
the threshold, and the stable counter had already reached 2 (so the increment
takes it to 3). -/
theorem detRound_shift_iff (st : DetectorState) (m : Move) :
    (detRound st m).2.2 = true ↔
      entropy_window ≤ st.entropy_counter + 1 ∧
      entropy_threshold < entropy (lastN entropy_window (st.raw_opponent_moves ++ [m])) ∧
      2 ≤ st.entropy_stable_rounds := by
  simp only [detRound]
  split_ifs <;> simp_all

/-- Without a shift, the round leaves `entropy_counter` incremented by one. -/
theorem detRound_counter_no_shift (st : DetectorState) (m : Move)
    (h : (detRound st m).2.2 = false) :
    ((detRound st m).1).entropy_counter = st.entropy_counter + 1 := by
  simp only [detRound] at h ⊢
  split_ifs at h ⊢ <;> simp_all

/-- On a shift, `entropy_counter` is folded modulo the window size and the
stable counter is reset to 0. -/
theorem detRound_state_shift (st : DetectorState) (m : Move)
    (h : (detRound st m).2.2 = true) :
    ((detRound st m).1).entropy_counter = (st.entropy_counter + 1) % entropy_window ∧
    ((detRound st m).1).entropy_stable_rounds = 0 := by
  simp only [detRound] at h ⊢
  split_ifs at h ⊢ <;> simp_all

/-- On an evaluation without a shift, the stable counter increments when the
window entropy exceeds the threshold and resets to 0 otherwise. -/
theorem detRound_stable (st : DetectorState) (m : Move)
    (heval : (detRound st m).2.1 = true) (hns : (detRound st m).2.2 = false) :
    ((detRound st m).1).entropy_stable_rounds =
      if entropy_threshold <
          entropy (lastN entropy_window (st.raw_opponent_moves ++ [m]))
      then st.entropy_stable_rounds + 1 else 0 := by
  simp only [detRound] at heval hns ⊢
  split_ifs at heval hns ⊢ <;> simp_all

/-- The raw opponent move list after `n` rounds is exactly the `n` opponent
moves in order. -/
theorem detTrace_raw (mv : ℕ → Move) (n : ℕ) :
    (detTrace mv n).raw_opponent_moves = (List.range n).map mv := by
  induction n with
  | zero => rfl
  | succ k ih =>
      show ((detRound (detTrace mv k) (mv k)).1).raw_opponent_moves = _
      rw [detRound_raw, ih, List.range_succ, List.map_append]
      rfl

/-- As long as no shift has occurred, `entropy_counter` equals the number of
completed rounds. -/
theorem detTrace_counter (mv : ℕ → Move) (n : ℕ)
    (h : ∀ k, k < n → shiftAt mv k = false) :
    (detTrace mv n).entropy_counter = n := by
  induction n with
  | zero => rfl
  | succ k ih =>
      have hk : (detRound (detTrace mv k) (mv k)).2.2 = false := h k (Nat.lt_succ_self k)
      show ((detRound (detTrace mv k) (mv k)).1).entropy_counter = k + 1
      rw [detRound_counter_no_shift _ _ hk,
        ih (fun j hj => h j (hj.trans (Nat.lt_succ_self k)))]

/-- Under a constant opponent the detector never advances its stable counter
(the window entropy is 0), so the trace is fully explicit. -/
theorem detTrace_constR (n : ℕ) :
    detTrace (fun _ => Move.R) n = ⟨n, 0, List.replicate n Move.R⟩ := by
  induction n with
  | zero => rfl
  | succ k ih =>
      show (detRound (detTrace (fun _ => Move.R) k) Move.R).1 = _
      rw [ih]
      have hraw : List.replicate k Move.R ++ [Move.R] = List.replicate (k + 1) Move.R :=
        (List.replicate_succ' k Move.R).symm
      have hent :
          entropy (lastN entropy_window (List.replicate (k + 1) Move.R)) = 0 := by
        unfold lastN
        rw [List.length_replicate, List.drop_replicate]
        exact entropy_replicate _ _
      have hthr : ¬ entropy_threshold <
          entropy (lastN entropy_window (List.replicate (k + 1) Move.R)) := by
        rw [hent]; unfold entropy_threshold; norm_num
      simp only [detRound, hraw]
      split_ifs with h1 h2 <;> simp_all

/-- Under a constant opponent no round ever signals a shift. -/
theorem shiftAt_constR (k : ℕ) : shiftAt (fun _ => Move.R) k = false := by
  have h := detRound_shift_iff (detTrace (fun _ => Move.R) k) Move.R
  rw [detTrace_constR] at h
  unfold shiftAt
  rw [detTrace_constR]
  cases hb : (detRound ⟨k, 0, List.replicate k Move.R⟩ Move.R).2.2 with
  | false => rfl
  | true => exact absurd (h.mp hb).2.2 (by simp)

/-- C4 (counterexample): with a constant opponent, round 11 — whose count is
not a multiple of the window size 10 — still computes the window entropy, so
the entropy is not computed "only once every 10 rounds, at round counts that
are multiples of the window size". -/
theorem detector_eval_off_multiple :
    evalAt (fun _ => Move.R) 10 = true ∧ (10 + 1) % entropy_window ≠ 0 := by
  constructor
  · unfold evalAt
    rw [detTrace_constR, detRound_eval_iff]
    simp [entropy_window]
  · simp [entropy_window]

/-- C4 (amended): as long as no regime shift has occurred, `entropy_counter`
equals the round count, and entropy of the last 10 raw opponent moves is
computed in EVERY round from round 10 onwards (not once every 10 rounds); on
each evaluation the consecutive high-entropy counter increments if entropy
exceeds 1.5 and resets to 0 otherwise; a regime shift is signalled exactly
when that counter reaches 3 (it previously held 2 and the evaluation
incremented it), whereupon the counter resets to 0 and the round-count modulus
is folded back into [0, 10). -/
theorem detector_cadence (mv : ℕ → Move) (n : ℕ)
    (h : ∀ k, k < n → shiftAt mv k = false) :
    (detTrace mv n).entropy_counter = n ∧
    (evalAt mv n = true ↔ entropy_window ≤ n + 1) ∧
    (shiftAt mv n = true ↔
      (entropy_window ≤ n + 1 ∧
       entropy_threshold <
         entropy (lastN entropy_window ((List.range (n + 1)).map mv)) ∧
       2 ≤ (detTrace mv n).entropy_stable_rounds)) ∧
    (shiftAt mv n = true →
      (detTrace mv (n + 1)).entropy_counter = (n + 1) % entropy_window ∧
      (detTrace mv (n + 1)).entropy_stable_rounds = 0) ∧
    (evalAt mv n = true → shiftAt mv n = false →
      (detTrace mv (n + 1)).entropy_stable_rounds =
        if entropy_threshold <
            entropy (lastN entropy_window ((List.range (n + 1)).map mv))
        then (detTrace mv n).entropy_stable_rounds + 1 else 0) := by
  have hc : (detTrace mv n).entropy_counter = n := detTrace_counter mv n h
  have hr : (detTrace mv n).raw_opponent_moves ++ [mv n] =
      (List.range (n + 1)).map mv := by
    rw [detTrace_raw, List.range_succ, List.map_append]; rfl
  refine ⟨hc, ?_, ?_, ?_, ?_⟩
  · unfold evalAt
    rw [detRound_eval_iff, hc]
  · unfold shiftAt
    rw [detRound_shift_iff, hc, hr]
  · intro hs
    show ((detRound (detTrace mv n) (mv n)).1).entropy_counter = _ ∧
      ((detRound (detTrace mv n) (mv n)).1).entropy_stable_rounds = 0
    have := detRound_state_shift (detTrace mv n) (mv n) hs
    rw [hc] at this
    exact this
  · intro he hs
    show ((detRound (detTrace mv n) (mv n)).1).entropy_stable_rounds = _
    rw [detRound_stable (detTrace mv n) (mv n) he hs, hr]

/-- C4 (amended, witness): the amended cadence instantiated at the constant-R
opponent and round 11. -/
theorem detector_cadence_witness :
    (detTrace (fun _ => Move.R) 10).entropy_counter = 10 ∧
    (evalAt (fun _ => Move.R) 10 = true ↔ entropy_window ≤ 10 + 1) ∧
    (shiftAt (fun _ => Move.R) 10 = true ↔
      (entropy_window ≤ 10 + 1 ∧
       entropy_threshold <
         entropy (lastN entropy_window ((List.range (10 + 1)).map (fun _ => Move.R))) ∧
       2 ≤ (detTrace (fun _ => Move.R) 10).entropy_stable_rounds)) ∧
    (shiftAt (fun _ => Move.R) 10 = true →
      (detTrace (fun _ => Move.R) (10 + 1)).entropy_counter = (10 + 1) % entropy_window ∧
      (detTrace (fun _ => Move.R) (10 + 1)).entropy_stable_rounds = 0) ∧
    (evalAt (fun _ => Move.R) 10 = true → shiftAt (fun _ => Move.R) 10 = false →
      (detTrace (fun _ => Move.R) (10 + 1)).entropy_stable_rounds =
        if entropy_threshold <
            entropy (lastN entropy_window ((List.range (10 + 1)).map (fun _ => Move.R)))
        then (detTrace (fun _ => Move.R) 10).entropy_stable_rounds + 1 else 0) :=
  detector_cadence (fun _ => Move.R) 10 (fun k _ => shiftAt_constR k)

/-- After the lazy-initialization step, the context's statistics exist: the
old ones if present, the freshly seeded ones otherwise. -/
theorem ensure_memory_self (b : BanditController) (c : Context) :
    (b.ensure c).context_memory c =
      some ((b.context_memory c).getD (initArms b.n)) := by
  unfold BanditController.ensure
  cases h : b.context_memory c with
  | some arms => simp [h]
  | none => simp [h, Function.update_same]

/-- The lazy-initialization step does not touch other contexts. -/
theorem ensure_memory_other (b : BanditController) (c c' : Context) (h : c' ≠ c) :
    (b.ensure c).context_memory c' = b.context_memory c' := by
  unfold BanditController.ensure
  cases hm : b.context_memory c with
  | some arms => rfl
  | none => exact Function.update_noteq h _ _

/-- The seed of a Python `max` fold is a lower bound of the result. -/
theorem foldl_max_init_le (l : List ℝ) : ∀ a : ℝ, a ≤ l.foldl max a := by
  induction l with
  | nil => intro a; exact le_refl a
  | cons b t ih => intro a; exact le_trans (le_max_left a b) (ih (max a b))

/-- Every list element is a lower bound of a Python `max` fold over it. -/
theorem foldl_max_mem_le (l : List ℝ) : ∀ a x : ℝ, x ∈ l → x ≤ l.foldl max a := by
  induction l with
  | nil => intro a x hx; cases hx
  | cons b t ih =>
      intro a x hx
      rcases List.mem_cons.mp hx with rfl | hx'
      · exact le_trans (le_max_right a x) (foldl_max_init_le t (max a x))
      · exact ih (max a b) x hx'

/-- A Python `max` fold returns the seed or one of the list elements. -/
theorem foldl_max_mem (l : List ℝ) : ∀ a : ℝ, l.foldl max a ∈ a :: l := by
  induction l with
  | nil => intro a; simp
  | cons b t ih =>
      intro a
      rcases List.mem_cons.mp (ih (max a b)) with h | h
      · rcases max_choice a b with hm | hm <;> rw [List.foldl_cons, h, hm] <;> simp
      · simp [List.mem_cons, h]

/-- Python `l.index(v)` for a present value: a valid position, holding `v`,
with no earlier position holding `v`. -/
theorem pyIndex_spec (v : ℝ) (l : List ℝ) (h : v ∈ l) :
    pyIndex v l < l.length ∧ l.getD (pyIndex v l) 0 = v ∧
      ∀ k, k < pyIndex v l → l.getD k 0 ≠ v := by
  induction l with
  | nil => cases h
  | cons x t ih =>
      by_cases hx : x = v
      · refine ⟨?_, ?_, ?_⟩ <;> simp [pyIndex, hx]
      · have hv : v ∈ t := by
          rcases List.mem_cons.mp h with h' | h'
          · exact absurd h'.symm hx
          · exact h'
        obtain ⟨h1, h2, h3⟩ := ih hv
        have hidx : pyIndex v (x :: t) = pyIndex v t + 1 := by simp [pyIndex, hx]
        refine ⟨?_, ?_, ?_⟩
        · rw [hidx, List.length_cons]; omega
        · rw [hidx, List.getD_cons_succ, h2]
        · intro k hk
          rw [hidx] at hk
          cases k with
          | zero => simpa [List.getD_cons_zero] using hx
          | succ k' =>
              rw [List.getD_cons_succ]
              exact h3 k' (by omega)

/-- `l.index(max(l))` on a non-empty list is a valid index of a maximal
element, and every earlier element is strictly smaller — Python's
first-maximum tie-break. -/
theorem selectIdx_spec (l : List ℝ) (hl : l ≠ []) :
    selectIdx l < l.length ∧
    (∀ i, i < l.length → l.getD i 0 ≤ l.getD (selectIdx l) 0) ∧
    (∀ i, i < selectIdx l → l.getD i 0 < l.getD (selectIdx l) 0) := by
  cases l with
  | nil => exact absurd rfl hl
  | cons x t =>
      have hmax_mem : pyListMax (x :: t) ∈ x :: t := by
        simpa [pyListMax] using foldl_max_mem t x
      have hmax_ge : ∀ y ∈ x :: t, y ≤ pyListMax (x :: t) := by
        intro y hy
        rcases List.mem_cons.mp hy with rfl | hy'
        · simpa [pyListMax] using foldl_max_init_le t y
        · simpa [pyListMax] using foldl_max_mem_le t x y hy'
      obtain ⟨h1, h2, h3⟩ := pyIndex_spec (pyListMax (x :: t)) (x :: t) hmax_mem
      have hsel : selectIdx (x :: t) = pyIndex (pyListMax (x :: t)) (x :: t) := rfl
      have hgd : ∀ i, i < (x :: t).length → (x :: t).getD i 0 ∈ x :: t := by
        intro i hi
        rw [List.getD_eq_getElem _ 0 hi]
        exact List.getElem_mem hi
      refine ⟨hsel ▸ h1, ?_, ?_⟩
      · intro i hi
        rw [hsel, h2]
        exact hmax_ge _ (hgd i hi)
      · intro i hi
        rw [hsel] at hi ⊢
        rw [h2]
        refine lt_of_le_of_ne (hmax_ge _ (hgd i (by omega))) (h3 i hi)

/-- A list in which every pull count is at least 1 has total pull count at
least its length. -/
theorem length_le_counts_sum (l : List ArmStats) (h : ∀ a ∈ l, 1 ≤ a.2) :
    l.length ≤ (l.map (fun a => a.2)).sum := by
  induction l with
  | nil => simp
  | cons x t ih =>
      simp only [List.length_cons, List.map_cons, List.sum_cons]
      have h1 : 1 ≤ x.2 := h x (List.mem_cons_self x t)
      have h2 := ih (fun a ha => h a (List.mem_cons_of_mem x ha))
      omega

/-- The reward/count increment preserves the list length. -/
theorem bumpArm_length (reward : ℝ) : ∀ (i : ℕ) (l : List ArmStats),
    (bumpArm reward i l).length = l.length := by
  intro i l
  induction l generalizing i with
  | nil => cases i <;> rfl
  | cons a t ih => cases i with
      | zero => rfl
      | succ i' => simpa [bumpArm] using ih i'

/-- The reward/count increment keeps every pull count at least 1. -/
theorem bumpArm_counts (reward : ℝ) : ∀ (i : ℕ) (l : List ArmStats),
    (∀ a ∈ l, 1 ≤ a.2) → ∀ a ∈ bumpArm reward i l, 1 ≤ a.2 := by
  intro i l
  induction l generalizing i with
  | nil => intro _ a ha; cases i <;> cases ha
  | cons x t ih =>
      intro h a ha
      cases i with
      | zero =>
          rcases List.mem_cons.mp ha with rfl | ha'
          · simp
          · exact h a (List.mem_cons_of_mem x ha')
      | succ i' =>
          rcases List.mem_cons.mp ha with rfl | ha'
          · exact h a (List.mem_cons_self a t)
          · exact ih i' (fun b hb => h b (List.mem_cons_of_mem x hb)) a ha'

/-- Lazy initialization preserves the controller invariant. -/
theorem ensure_inv (n : ℕ) (b : BanditController) (c : Context)
    (h : ControllerInv n b) : ControllerInv n (b.ensure c) := by
  obtain ⟨hn, hmem⟩ := h
  have hne : (b.ensure c).n = n := by
    unfold BanditController.ensure
    cases hb : b.context_memory c <;> simp [hn]
  refine ⟨hne, ?_⟩
  intro c' arms' h'
  by_cases hcc : c' = c
  · subst hcc
    rw [ensure_memory_self] at h'
    obtain rfl := (Option.some.inj h').symm
    cases hb : b.context_memory c' with
    | some arms0 =>
        simp only [Option.getD_some]
        exact hmem c' arms0 hb
    | none =>
        simp only [Option.getD_none]
        constructor
        · simp [initArms, hn]
        · intro a ha
          have := List.eq_of_mem_replicate ha
          simp [this]
  · rw [ensure_memory_other b c c' hcc] at h'
    exact hmem c' arms' h'

/-- `select_strategy` preserves the controller invariant (its only state
effect is the lazy initialization). -/
theorem select_strategy_inv (n : ℕ) (b : BanditController)
    (history : List RoundRecord) (h : ControllerInv n b) :
    ControllerInv n (b.select_strategy history).1 :=
  ensure_inv n b (_context_key history) h

/-- The memory cell `update` writes: the ensured statistics of the resolved
context with reward and pull count bumped at `index`. -/
theorem update_memory_self (b : BanditController) (history : List RoundRecord)
    (index : ℕ) (reward : ℝ) :
    (b.update history index reward).context_memory (_context_key history) =
      some (bumpArm reward index
        ((b.context_memory (_context_key history)).getD (initArms b.n))) := by
  show Function.update (b.ensure (_context_key history)).context_memory
      (_context_key history)
      (some (bumpArm reward index
        (((b.ensure (_context_key history)).context_memory
          (_context_key history)).getD []))) (_context_key history) = _
  rw [Function.update_same, ensure_memory_self]
  rfl

/-- `update` leaves every other context's statistics untouched (beyond the
shared lazy initialization). -/
theorem update_memory_other (b : BanditController) (history : List RoundRecord)
    (index : ℕ) (reward : ℝ) (c' : Context) (h : c' ≠ _context_key history) :
    (b.update history index reward).context_memory c' =
      (b.ensure (_context_key history)).context_memory c' := by
  show Function.update (b.ensure (_context_key history)).context_memory
      (_context_key history) _ c' = _
  exact Function.update_noteq h _ _

/-- `update` preserves the controller invariant: it lazily initializes, adds
the reward, and increments one pull count. -/
theorem update_inv (n : ℕ) (b : BanditController) (history : List RoundRecord)
    (index : ℕ) (reward : ℝ) (h : ControllerInv n b) :
    ControllerInv n (b.update history index reward) := by
  obtain ⟨hn', hmem'⟩ := ensure_inv n b (_context_key history) h
  have hnn : (b.update history index reward).n = n := hn'
  refine ⟨hnn, ?_⟩
  intro c' arms' h'
  by_cases hcc : c' = _context_key history
  · subst hcc
    rw [update_memory_self] at h'
    obtain ⟨hl, hc⟩ := hmem' _ _ (ensure_memory_self b (_context_key history))
    obtain rfl := (Option.some.inj h').symm
    exact ⟨by rw [bumpArm_length]; exact hl,
      bumpArm_counts reward index _ hc⟩
  · rw [update_memory_other b history index reward c' hcc] at h'
    exact hmem' c' arms' h'

/-- Every reachable controller state satisfies the structural invariant. -/
theorem reachable_inv (n : ℕ) (b : BanditController) (h : Reachable n b) :
    ControllerInv n b := by
  induction h with
  | init =>
      exact ⟨rfl, fun c arms h' => Option.noConfusion h'⟩
  | sel b' history _ ih => exact select_strategy_inv n b' history ih
  | upd b' history index reward _ ih => exact update_inv n b' history index reward ih

/-- C6: for every history and well-formed controller state, `select_strategy`
resolves the context's statistics and returns the index of the maximum of the
UCB1 scores `cumulative_reward / pull_count
+ 2 * sqrt(ln(total_pulls_in_context) / pull_count)` (the `ucb_scores` list),
with ties broken by the lowest index: every score is at most the selected one,
and every earlier score is strictly smaller. -/
theorem select_strategy_first_argmax (b : BanditController)
    (history : List RoundRecord) (hn : 0 < b.n)
    (hwf : ∀ c arms, b.context_memory c = some arms → arms.length = b.n) :
    ∃ arms : List ArmStats,
      (b.ensure (_context_key history)).context_memory (_context_key history) =
        some arms ∧
      arms.length = b.n ∧
      (b.select_strategy history).2 = selectIdx (ucb_scores arms) ∧
      (b.select_strategy history).2 < b.n ∧
      (∀ i, i < b.n →
        (ucb_scores arms).getD i 0 ≤
          (ucb_scores arms).getD (b.select_strategy history).2 0) ∧
      (∀ i, i < (b.select_strategy history).2 →
        (ucb_scores arms).getD i 0 <
          (ucb_scores arms).getD (b.select_strategy history).2 0) := by
  obtain ⟨A, hAm, hAlen⟩ :
      ∃ A : List ArmStats,
        (b.ensure (_context_key history)).context_memory (_context_key history) =
          some A ∧ A.length = b.n := by
    cases hm : b.context_memory (_context_key history) with
    | some arms0 =>
        exact ⟨arms0, by rw [ensure_memory_self, hm]; rfl, hwf _ _ hm⟩
    | none =>
        exact ⟨initArms b.n, by rw [ensure_memory_self, hm]; rfl, by simp [initArms]⟩
  have hsel : (b.select_strategy history).2 = selectIdx (ucb_scores A) := by
    show selectIdx (ucb_scores (((b.ensure (_context_key history)).context_memory
      (_context_key history)).getD [])) = selectIdx (ucb_scores A)
    rw [hAm]
    rfl
  have hslen : (ucb_scores A).length = b.n := by
    simp [ucb_scores, hAlen]
  have hne : ucb_scores A ≠ [] := by
    refine List.length_pos.mp ?_
    rw [hslen]
    exact hn
  obtain ⟨h1, h2, h3⟩ := selectIdx_spec (ucb_scores A) hne
  refine ⟨A, hAm, hAlen, hsel, ?_, ?_, ?_⟩
  · rw [hsel]
    rw [hslen] at h1
    exact h1
  · intro i hi
    rw [hsel]
    exact h2 i (by rw [hslen]; exact hi)
  · intro i hi
    rw [hsel]
    exact h3 i (by rw [← hsel]; exact hi)

/-- C6 (witness): the argmax characterization instantiated at a fresh
4-predictor controller and the empty history. -/
theorem select_strategy_first_argmax_witness :
    ∃ arms : List ArmStats,
      ((freshController 4).ensure (_context_key [])).context_memory
        (_context_key []) = some arms ∧
      arms.length = (freshController 4).n ∧
      ((freshController 4).select_strategy []).2 = selectIdx (ucb_scores arms) ∧
      ((freshController 4).select_strategy []).2 < (freshController 4).n ∧
      (∀ i, i < (freshController 4).n →
        (ucb_scores arms).getD i 0 ≤
          (ucb_scores arms).getD ((freshController 4).select_strategy []).2 0) ∧
      (∀ i, i < ((freshController 4).select_strategy []).2 →
        (ucb_scores arms).getD i 0 <
          (ucb_scores arms).getD ((freshController 4).select_strategy []).2 0) :=
  select_strategy_first_argmax (freshController 4) [] (by decide)
    (fun _ _ h => Option.noConfusion h)

/-- C7: in every reachable state of a `BanditController` over `n` predictors,
every initialized (context, index) pair has pull count at least 1, the
per-context total pull count is at least `n`, and whenever `n ≥ 2` the
`math.log(total)` of `select_strategy` is applied to a value above 1 and is
positive — no pull count, hence no divisor, is zero.  The invariant is
established by the lazy initialization to `(0.0, 1)` and preserved by
`update`'s increment. -/
theorem bandit_pull_count_invariant (n : ℕ) (b : BanditController)
    (h : Reachable n b) :
    b.n = n ∧
    ∀ c arms, b.context_memory c = some arms →
      arms.length = n ∧
      (∀ a ∈ arms, 1 ≤ a.2) ∧
      n ≤ (arms.map (fun a => a.2)).sum ∧
      (2 ≤ n → 0 < Real.log (((arms.map (fun a => a.2)).sum : ℕ) : ℝ)) := by
  obtain ⟨hn, hmem⟩ := reachable_inv n b h
  refine ⟨hn, ?_⟩
  intro c arms hc
  obtain ⟨hlen, hcounts⟩ := hmem c arms hc
  have hsum : n ≤ (arms.map (fun a => a.2)).sum :=
    hlen ▸ length_le_counts_sum arms hcounts
  refine ⟨hlen, hcounts, hsum, ?_⟩
  intro h2
  apply Real.log_pos
  have h2s : (2 : ℕ) ≤ (arms.map (fun a => a.2)).sum := le_trans h2 hsum
  exact lt_of_lt_of_le one_lt_two (by exact_mod_cast h2s)

/-- C7 (witness): the invariant instantiated at the state reached by one
`select_strategy` call on a fresh 4-predictor controller. -/
theorem bandit_pull_count_invariant_witness :
    ((freshController 4).select_strategy []).1.n = 4 ∧
    ∀ c arms,
      ((freshController 4).select_strategy []).1.context_memory c = some arms →
      arms.length = 4 ∧
      (∀ a ∈ arms, 1 ≤ a.2) ∧
      4 ≤ (arms.map (fun a => a.2)).sum ∧
      (2 ≤ 4 → 0 < Real.log (((arms.map (fun a => a.2)).sum : ℕ) : ℝ)) :=
  bandit_pull_count_invariant 4 ((freshController 4).select_strategy []).1
    (Reachable.sel (freshController 4) [] Reachable.init)

/-- C8: a detector-triggered reset replaces the controller instance wholesale
by a fresh `BanditController` over the same strategies; afterwards every
context is unknown (`none`), and the lazy re-initialization of any context
yields exactly cumulative reward 0.0 and pull count 1 for every
predictor-index. -/
theorem reset_wholesale_reinitializes (b : BanditController) (c : Context) :
    resetOnShift true b = freshController b.n ∧
    (resetOnShift true b).context_memory c = none ∧
    ((resetOnShift true b).ensure c).context_memory c =
      some (List.replicate b.n ((0 : ℝ), 1)) := by
  refine ⟨rfl, rfl, ?_⟩
  rw [show resetOnShift true b = freshController b.n from rfl, ensure_memory_self]
  rfl
